import Mathlib

/-!
Verification of the prcadmin crawler.

A shallow embedding of `src/prcadmin.py` (and the output conventions of
`src/sort_csv.py`'s input) together with proofs about it.  The pure parts of
the program — page analysis, code construction, URL resolution, CSV row
formatting — are translated into executable Lean functions; the concurrent
queue machinery (`worker`, `writer`, `run_queue` over `asyncio.Queue`) is
modelled as an explicit transition system whose steps mirror the awaits of
the worker loop.
-/

set_option maxHeartbeats 1000000

namespace Prcadmin

/-- Python's `needle in hay` substring test on strings. -/
def pyContains (needle hay : String) : Bool :=
  decide (needle.data <:+: hay.data)

/-- The anti-scraping marker tested by `analyze_page`:
`"jsjiami.com.v6" in html`. -/
def rateLimitMarker : String := "jsjiami.com.v6"

/-- An `<a>` tag as used by the source (`td.find("a")` followed by
`.get("href")`): only the optional `href` attribute matters.  A tag that is
present is treated as truthy. -/
structure ATag where
  href : Option String
deriving DecidableEq, Repr

/-- A `<td>` cell: its visible text (`td.text`) and its first `<a>`
descendant (`td.find("a")`), when one exists. -/
structure Td where
  text : String
  a : Option ATag
deriving DecidableEq, Repr

/-- A `<tr>` row: the values of its `class` attribute and its `<td>` cells
(`tr.find_all("td")`). -/
structure Tr where
  classes : List String
  tds : List Td
deriving DecidableEq, Repr

/-- A fetched document: the raw response text (used by the substring
rate-limit test) and the `<tr>` elements BeautifulSoup would parse out of
it.  Parsing itself is outside the embedding, so the two fields are carried
side by side. -/
structure Html where
  raw : String
  trs : List Tr
deriving DecidableEq, Repr

/-- Model of `bs4_obj.find_all("tr", class_=cls)`: the rows whose `class` attribute
contains `cls`. -/
def find_all (doc : List Tr) (cls : String) : List Tr :=
  doc.filter fun tr => tr.classes.contains cls

/-- The administrative levels in the priority order the source's `for`
loop tries them. -/
def admin_types : List String := ["province", "city", "county", "town", "village"]

/-- The level-selection loop of `analyze_page`: the first admin type whose
`find_all` on class `type ++ "tr"` is nonempty, together with the matched
rows; `none` when the loop falls through to its `else` clause. -/
def findLevel (doc : List Tr) : Option (String × List Tr) :=
  admin_types.findSome? fun t =>
    let trs := find_all doc (t ++ "tr")
    if trs.isEmpty then none else some (t, trs)

/-- A division record as built by `analyze_page`: `(code, name, level)`. -/
abbrev DivisionEntry := String × String × String

/-- Python `s.split(sep)` for a single-character separator, on character
lists: maximal runs between occurrences of `c`, keeping empty runs, so the
result is always nonempty. -/
def splitChar (c : Char) : List Char → List (List Char)
  | [] => [[]]
  | x :: xs =>
    let r := splitChar c xs
    if x = c then [] :: r
    else
      match r with
      | [] => [[x]]
      | y :: ys => (x :: y) :: ys

/-- Python `s.split(c)[-1]` for a one-character separator (the split is
never empty, so the default is never used). -/
def pySplitLast (s : String) (c : Char) : String := ⟨(splitChar c s.data).getLastD []⟩

/-- Python `s.split(c)[0]` for a one-character separator. -/
def pySplitHead (s : String) (c : Char) : String := ⟨(splitChar c s.data).headD []⟩

/-- One `<td>` of a province row:
`code = td.find("a").get("href").split("/")[-1].split(".")[0] + "0" * 10`,
the name is the cell text, and the raw `href` becomes a subpage.  `none`
models the `AttributeError` raised when the cell has no `<a>` or the `<a>`
has no `href`. -/
def provinceCell (td : Td) : Option (DivisionEntry × String) := do
  let a ← td.a
  let href ← a.href
  let code := pySplitHead (pySplitLast href '/') '.' ++ "0000000000"
  some ((code, td.text, "province"), href)

/-- One row of a non-province level: `code = tds[0].text`,
`name = tds[-1].text`; `none` models the `IndexError` when the row has no
cells.  The optional child link mirrors
`if tds[0].find("a") and tds[0].find("a").get("href")`, where a found tag is
truthy and an `href` string is truthy exactly when nonempty. -/
def otherRow (lvl : String) (tr : Tr) : Option (DivisionEntry × Option String) := do
  let td0 ← tr.tds.head?
  let tdLast ← tr.tds.getLast?
  let sub : Option String :=
    match td0.a with
    | some a =>
      match a.href with
      | some h => if h = "" then none else some h
      | none => none
    | none => none
  some ((td0.text, tdLast.text, lvl), sub)

/-- The row loop of `analyze_page` over the matched rows, producing the
`divisions` and raw `subpages` lists; `none` models an uncaught exception
part-way through the loop. -/
def extractRows (lvl : String) (trs : List Tr) : Option (List DivisionEntry × List String) :=
  if lvl = "province" then do
    let cells ← trs.mapM fun tr => tr.tds.mapM provinceCell
    let flat := cells.flatten
    some (flat.map Prod.fst, flat.map Prod.snd)
  else do
    let rows ← trs.mapM (otherRow lvl)
    some (rows.map Prod.fst, rows.filterMap Prod.snd)

/-- A URL is absolute, in this model, when it carries an explicit `http` or
`https` scheme. -/
def isAbsoluteUrl (u : String) : Bool :=
  "http://".data.isPrefixOf u.data || "https://".data.isPrefixOf u.data

/-- The scheme of a URL together with its colon: `"http:"`. -/
def urlScheme (u : String) : String :=
  ⟨u.data.takeWhile (· ≠ ':') ++ [':']⟩

/-- Scheme and authority of an absolute URL: everything through the host,
before the path. -/
def urlRoot (u : String) : String :=
  let s := u.data.takeWhile (· ≠ ':')
  let rest := u.data.drop (s.length + 3)
  ⟨s ++ ':' :: '/' :: '/' :: rest.takeWhile (· ≠ '/')⟩

/-- The URL up to and including its last slash: the directory against
which a relative reference is resolved. -/
def urlDir (u : String) : String :=
  ⟨(u.data.reverse.dropWhile (· ≠ '/')).reverse⟩

/-- Model of `urllib.parse.urljoin` for `http`/`https` base URLs: a
scheme-qualified reference is returned unchanged, a network-path reference
keeps the base scheme, an absolute path keeps scheme and host, an empty
reference keeps the base, and anything else is resolved against the base's
directory.  Dot-segment normalisation and non-http schemes are outside the
model. -/
def urljoin (base rel : String) : String :=
  if isAbsoluteUrl rel then rel
  else if rel.data.take 2 = ['/', '/'] then urlScheme base ++ rel
  else if rel.data.take 1 = ['/'] then urlRoot base ++ rel
  else if rel = "" then base
  else urlDir base ++ rel

/-- The fetch outcome feeding `analyze_page`: `failure` models
`aiohttp.ClientError` escaping `session.get`, `success` a response whose
text was read. -/
inductive FetchResult where
  | failure
  | success (html : Html)
deriving DecidableEq, Repr

/-- What one call of `analyze_page` does: the `asyncio.sleep` durations it
performs (in seconds, in order) and its return value, where `none` models
an uncaught exception propagating to the caller. -/
structure PageResult where
  sleeps : List Nat
  result : Option (List DivisionEntry × List String)
deriving DecidableEq, Repr

/-- Model of `analyze_page`: a network failure sleeps 5 s and returns `([], [url])`;
a body containing the rate-limit marker sleeps 60 s and returns
`([], [url])`; otherwise the first matching level's rows are extracted and
the subpages resolved with `urljoin` against the page URL; no matching
level returns `([], [])`. -/
def analyze_page (url : String) (fetch : FetchResult) : PageResult :=
  match fetch with
  | .failure => ⟨[5], some ([], [url])⟩
  | .success html =>
    if pyContains rateLimitMarker html.raw then ⟨[60], some ([], [url])⟩
    else
      match findLevel html.trs with
      | none => ⟨[], some ([], [])⟩
      | some (lvl, trs) =>
        match extractRows lvl trs with
        | none => ⟨[], none⟩
        | some (divs, subs) => ⟨[], some (divs, subs.map (urljoin url))⟩

/-- An observable action of the `worker` loop body. -/
inductive Event where
  | dequeue (url : String)
  | sleep (secs : Nat)
  | putResult (d : DivisionEntry)
  | putUrl (url : String)
  | taskDone
deriving DecidableEq, Repr

/-- The actions of one iteration of `worker`, in program order: dequeue the
URL, run `analyze_page` (with its sleeps), then on a normal return put every
division on the writer queue, put every subpage on the frontier queue, and
signal `task_done` once.  An uncaught exception ends the task with no
further actions. -/
def workerEvents (url : String) (fetch : FetchResult) : List Event :=
  let pr := analyze_page url fetch
  Event.dequeue url :: (pr.sleeps.map Event.sleep ++
    match pr.result with
    | none => []
    | some (divs, subs) =>
      divs.map Event.putResult ++ subs.map Event.putUrl ++ [Event.taskDone])

/-- Python `str.strip()`: surrounding whitespace removed (modelled with
`Char.isWhitespace`). -/
def pyStrip (s : String) : String :=
  ⟨((s.data.dropWhile Char.isWhitespace).reverse.dropWhile Char.isWhitespace).reverse⟩

/-- The header row written by `csv.DictWriter.writeheader` for field names
`["code", "name", "level"]`. -/
def csvHeader : List String := ["code", "name", "level"]

/-- One `writerow` call of `writer`: the record's code and name are
stripped and the values are emitted in the fixed field order. -/
def writerRow (d : DivisionEntry) : List String :=
  [pyStrip d.1, pyStrip d.2.1, d.2.2]

/-- One iteration of the `writer` loop: append the row for the dequeued
record to the file contents. -/
def writerStep (rows : List (List String)) (d : DivisionEntry) : List (List String) :=
  rows ++ [writerRow d]

/-- The `writer` task drained over a list of dequeued records, starting
from the file holding only the header row. -/
def writerDrain (divs : List DivisionEntry) : List (List String) :=
  divs.foldl writerStep [csvHeader]

/-! ## The frontier queue and worker pool

`run_queue` seeds an `asyncio.Queue` with the root URL, starts `ntasks`
copies of `worker`, and `await`s `queue.join()`.  For the failure-free
finite-tree scenario the pages form a tree; each frontier entry is carried
together with the subtree it roots, so that the successful `analyze_page`
of a node returns exactly the node's children. -/

/-- A finite page tree: the URL of a page and the subtrees reached through
its child links. -/
inductive UTree where
  | node (url : String) (kids : List UTree)
deriving Repr

/-- The URL at the root of a tree. -/
def UTree.url : UTree → String
  | .node u _ => u

/-- The immediate subtrees of a tree. -/
def UTree.kids : UTree → List UTree
  | .node _ ks => ks

mutual

/-- All URLs of a tree, root first. -/
def UTree.nodes : UTree → List String
  | .node u ks => u :: nodesList ks

/-- All URLs of a forest. -/
def nodesList : List UTree → List String
  | [] => []
  | t :: ts => t.nodes ++ nodesList ts

end

mutual

/-- Number of URLs in a tree. -/
def UTree.size : UTree → Nat
  | .node _ ks => 1 + sizeList ks

/-- Number of URLs in a forest. -/
def sizeList : List UTree → Nat
  | [] => 0
  | t :: ts => t.size + sizeList ts

end

/-- The frontier-related state of the system: the queue contents (each
entry with the subtree it roots), the iterations some worker has started
but not yet completed (holding the children it has not yet re-enqueued),
the history of dequeued URLs, and the queue's unfinished-task counter
(`asyncio.Queue`: `put` increments, `task_done` decrements, `join` waits
for zero; `get` leaves it unchanged). -/
structure CrawlState where
  pending : List UTree
  inflight : List (String × List UTree)
  dequeued : List String
  unfinished : Nat

/-- One scheduler step of the worker pool on a failure-free crawl.
`deq` is `url = await queue.get()` (FIFO head, no counter change) followed
by the successful `analyze_page`, whose subpages on the modelled tree are
the node's children; `push` is one `queue.put(subpage)` of the loop over
subpages (counter up by one); `done` is `queue.task_done()` once every
subpage of the iteration has been enqueued (counter down by one — the
`n + 1` pattern reflects that the counter is positive while an iteration
is in flight).  Steps of different worker tasks interleave freely. -/
inductive CrawlStep : CrawlState → CrawlState → Prop where
  | deq (t : UTree) (rest : List UTree) (fl : List (String × List UTree))
      (dq : List String) (n : Nat) :
      CrawlStep ⟨t :: rest, fl, dq, n⟩
        ⟨rest, fl ++ [(t.url, t.kids)], dq ++ [t.url], n⟩
  | push (p : List UTree) (pre post : List (String × List UTree))
      (u : String) (c : UTree) (cs : List UTree) (dq : List String) (n : Nat) :
      CrawlStep ⟨p, pre ++ (u, c :: cs) :: post, dq, n⟩
        ⟨p ++ [c], pre ++ (u, cs) :: post, dq, n + 1⟩
  | done (p : List UTree) (pre post : List (String × List UTree))
      (u : String) (dq : List String) (n : Nat) :
      CrawlStep ⟨p, pre ++ (u, []) :: post, dq, n + 1⟩
        ⟨p, pre ++ post, dq, n⟩

/-- The state after `queue.put_nowait(url)` in `run_queue`: the root
pending, counter one. -/
def initState (t : UTree) : CrawlState := ⟨[t], [], [], 1⟩

/-- The states the worker pool can reach from the initial state. -/
def Reachable (t : UTree) (s : CrawlState) : Prop :=
  Relation.ReflTransGen CrawlStep (initState t) s

/-- The URLs still to be enqueued by in-flight iterations, with the nodes
below them. -/
def inflightKidNodes : List (String × List UTree) → List String
  | [] => []
  | pr :: fl => nodesList pr.2 ++ inflightKidNodes fl

/-- All URLs accounted for by a state: already dequeued, pending in the
queue (with their subtrees), or held by an in-flight iteration (with their
subtrees). -/
def stateMultiset (s : CrawlState) : Multiset String :=
  ↑s.dequeued + ↑(nodesList s.pending) + ↑(inflightKidNodes s.inflight)

/-- The invariant of the failure-free crawl: the unfinished-task counter
counts pending entries plus in-flight iterations, and the accounted URLs
are exactly the tree's nodes. -/
def CrawlInv (t : UTree) (s : CrawlState) : Prop :=
  s.unfinished = s.pending.length + s.inflight.length ∧
  stateMultiset s = ↑t.nodes

/-- The record a non-province row contributes: the first cell's text as
code, the last cell's text as name, and the matched level (the default
cell is never reached on rows with at least one cell). -/
def rowRecord (lvl : String) (tr : Tr) : DivisionEntry :=
  ((tr.tds.headD ⟨"", none⟩).text, (tr.tds.getLastD ⟨"", none⟩).text, lvl)

/-- The child link a non-province row contributes, when its first cell
holds a truthy `<a>` with a truthy (nonempty) `href`. -/
def rowLink (tr : Tr) : Option String :=
  match (tr.tds.headD ⟨"", none⟩).a with
  | some a =>
    match a.href with
    | some h => if h = "" then none else some h
    | none => none
  | none => none

/-- Test returning `true` when a string neither starts nor ends with a whitespace
character. -/
def noEdgeWhitespace (s : String) : Bool :=
  (match s.data.head? with
   | none => true
   | some c => ! c.isWhitespace) &&
  (match s.data.getLast? with
   | none => true
   | some c => ! c.isWhitespace)

/-! Concrete pages and trees used to instantiate the theorems. -/

/-- A three-node tree: a root with two leaf children. -/
def demoTree : UTree :=
  .node "http://h/0.html" [.node "http://h/1.html" [], .node "http://h/2.html" []]

/-- A province cell linking to `11.html`. -/
def tdBeijing : Td := ⟨"Beijing", some ⟨some "11.html"⟩⟩

/-- A province cell linking to `12.html`. -/
def tdTianjin : Td := ⟨"Tianjin", some ⟨some "12.html"⟩⟩

/-- A synthetic province page with one row of two cells. -/
def provincePage : Html := ⟨"<html>", [⟨["provincetr"], [tdBeijing, tdTianjin]⟩]⟩

/-- A province page whose link stem has three characters. -/
def longStemPage : Html := ⟨"", [⟨["provincetr"], [⟨"X", some ⟨some "123.html"⟩⟩]⟩]⟩

/-- A body containing the rate-limit marker and, nevertheless, a valid
province row group. -/
def markedPage : Html := ⟨"var a; jsjiami.com.v6; var b", [⟨["provincetr"], [tdBeijing]⟩]⟩

/-- A city row whose first cell links to a subpage. -/
def cityRowLinked : Tr := ⟨["citytr"], [⟨"110100000000", some ⟨some "11/1101.html"⟩⟩, ⟨"市辖区", none⟩]⟩

/-- A link-less city row. -/
def cityRowPlain : Tr := ⟨["citytr"], [⟨"110200000000", none⟩, ⟨"县", none⟩]⟩

/-- A synthetic city page with a linked and a link-less row. -/
def cityPage : Html := ⟨"", [cityRowLinked, cityRowPlain]⟩

/-- A county page whose name cell carries surrounding whitespace. -/
def wsPage : Html := ⟨"", [⟨["countytr"], [⟨"110101000000", none⟩, ⟨" DongCheng ", none⟩]⟩]⟩

/-- A page that matches the city level with a row that has no cells. -/
def malformedPage : Html := ⟨"", [⟨["citytr"], []⟩]⟩

/-- A page matching no level markup at all. -/
def leafPage : Html := ⟨"<html>plain text</html>", [⟨["datatr"], [⟨"x", none⟩]⟩]⟩

@[simp]
theorem UTree.url_node (u : String) (ks : List UTree) : (UTree.node u ks).url = u := rfl

@[simp]
theorem UTree.kids_node (u : String) (ks : List UTree) : (UTree.node u ks).kids = ks := rfl

@[simp]
theorem UTree.nodes_node (u : String) (ks : List UTree) :
    (UTree.node u ks).nodes = u :: nodesList ks := rfl

@[simp]
theorem nodesList_nil : nodesList [] = [] := rfl

@[simp]
theorem nodesList_cons (t : UTree) (ts : List UTree) :
    nodesList (t :: ts) = t.nodes ++ nodesList ts := rfl

@[simp]
theorem nodesList_append (ts us : List UTree) :
    nodesList (ts ++ us) = nodesList ts ++ nodesList us := by
  induction ts with
  | nil => simp
  | cons t ts ih => simp [ih]

theorem UTree.nodes_ne_nil (t : UTree) : t.nodes ≠ [] := by
  cases t; simp

theorem nodesList_eq_nil_iff (ts : List UTree) : nodesList ts = [] ↔ ts = [] := by
  cases ts with
  | nil => simp
  | cons t ts =>
    simp only [nodesList_cons, List.append_eq_nil]
    exact ⟨fun h => absurd h.1 t.nodes_ne_nil, fun h => by simp at h⟩

@[simp]
theorem inflightKidNodes_nil : inflightKidNodes [] = [] := rfl

@[simp]
theorem inflightKidNodes_cons (pr : String × List UTree) (fl : List (String × List UTree)) :
    inflightKidNodes (pr :: fl) = nodesList pr.2 ++ inflightKidNodes fl := rfl

@[simp]
theorem inflightKidNodes_append (fl gl : List (String × List UTree)) :
    inflightKidNodes (fl ++ gl) = inflightKidNodes fl ++ inflightKidNodes gl := by
  induction fl with
  | nil => simp
  | cons pr fl ih => simp [ih]

@[simp]
theorem sizeList_nil : sizeList [] = 0 := rfl

@[simp]
theorem sizeList_cons (t : UTree) (ts : List UTree) :
    sizeList (t :: ts) = t.size + sizeList ts := rfl

@[simp]
theorem UTree.size_node (u : String) (ks : List UTree) :
    (UTree.node u ks).size = 1 + sizeList ks := rfl

@[simp]
theorem sizeList_append (ts us : List UTree) :
    sizeList (ts ++ us) = sizeList ts + sizeList us := by
  induction ts with
  | nil => simp
  | cons t ts ih => simp [ih, Nat.add_assoc]

/-- Every step of the worker pool preserves the crawl invariant. -/
theorem crawlInv_step {t : UTree} {s s' : CrawlState}
    (h : CrawlStep s s') (hi : CrawlInv t s) : CrawlInv t s' := by
  obtain ⟨hc, hm⟩ := hi
  cases h with
  | deq tr rest fl dq n =>
    refine ⟨?_, ?_⟩
    · simp at hc ⊢
      omega
    · rw [← hm]
      simp only [stateMultiset]
      cases tr with
      | node u ks =>
        simp only [UTree.nodes_node, UTree.url, UTree.kids, nodesList_cons,
          inflightKidNodes_append, inflightKidNodes_cons, inflightKidNodes_nil,
          List.append_nil, ← Multiset.coe_add, ← Multiset.cons_coe,
          ← Multiset.singleton_add, Multiset.coe_nil, add_zero]
        abel
  | push p pre post u c cs dq n =>
    refine ⟨?_, ?_⟩
    · simp at hc ⊢
      omega
    · rw [← hm]
      simp only [stateMultiset]
      simp only [nodesList_append, nodesList_cons, nodesList_nil, List.append_nil,
        inflightKidNodes_append, inflightKidNodes_cons, ← Multiset.coe_add]
      abel
  | done p pre post u dq n =>
    refine ⟨?_, ?_⟩
    · simp at hc ⊢
      omega
    · rw [← hm]
      simp only [stateMultiset]
      simp only [inflightKidNodes_append, inflightKidNodes_cons, nodesList_nil,
        List.nil_append, ← Multiset.coe_add]

/-- The initial state satisfies the crawl invariant. -/
theorem crawlInv_init (t : UTree) : CrawlInv t (initState t) := by
  refine ⟨rfl, ?_⟩
  simp [initState, stateMultiset]

/-- Every reachable state satisfies the crawl invariant. -/
theorem crawlInv_of_reachable {t : UTree} {s : CrawlState}
    (h : Reachable t s) : CrawlInv t s := by
  induction h with
  | refl => exact crawlInv_init t
  | tail _ hstep ih => exact crawlInv_step hstep ih

/-- A forest with no URLs is empty. -/
theorem inflightKidNodes_eq_nil_iff (fl : List (String × List UTree)) :
    inflightKidNodes fl = [] ↔ ∀ pr ∈ fl, pr.2 = ([] : List UTree) := by
  induction fl with
  | nil => simp
  | cons pr fl ih =>
    simp [List.append_eq_nil, nodesList_eq_nil_iff, ih]

/-- The worker holding the only in-flight iteration can enqueue all its
remaining subpages. -/
theorem steps_push_all (u : String) (cs : List UTree) :
    ∀ (p : List UTree) (dq : List String) (n : Nat),
    Relation.ReflTransGen CrawlStep ⟨p, [(u, cs)], dq, n⟩
      ⟨p ++ cs, [(u, [])], dq, n + cs.length⟩ := by
  induction cs with
  | nil =>
    intro p dq n
    simpa using Relation.ReflTransGen.refl
  | cons c cs ih =>
    intro p dq n
    refine Relation.ReflTransGen.head (CrawlStep.push p [] [] u c cs dq n) ?_
    have h := ih (p ++ [c]) dq (n + 1)
    have e1 : (p ++ [c]) ++ cs = p ++ c :: cs := by simp
    have e2 : n + 1 + cs.length = n + (c :: cs).length := by simp; omega
    rw [e1, e2] at h
    exact h

/-- One full worker iteration, run without interleaving: dequeue the head,
enqueue all its children, signal task done. -/
theorem steps_iteration (t : UTree) (rest : List UTree) (dq : List String) :
    Relation.ReflTransGen CrawlStep ⟨t :: rest, [], dq, rest.length + 1⟩
      ⟨rest ++ t.kids, [], dq ++ [t.url], (rest ++ t.kids).length⟩ := by
  refine Relation.ReflTransGen.head (CrawlStep.deq t rest [] dq (rest.length + 1)) ?_
  refine Relation.ReflTransGen.trans
    (steps_push_all t.url t.kids rest (dq ++ [t.url]) (rest.length + 1)) ?_
  have e : rest.length + 1 + t.kids.length = (rest.length + t.kids.length) + 1 := by omega
  rw [e]
  have h := CrawlStep.done (rest ++ t.kids) [] [] t.url (dq ++ [t.url])
    (rest.length + t.kids.length)
  have e2 : (rest ++ t.kids).length = rest.length + t.kids.length := by simp
  rw [e2]
  simpa using Relation.ReflTransGen.single h

/-- From a frontier holding the forest `ts` and no in-flight iteration,
the pool can drain everything: the whole crawl terminates. -/
theorem steps_run (N : Nat) : ∀ (ts : List UTree) (dq : List String), sizeList ts ≤ N →
    ∃ dq', Relation.ReflTransGen CrawlStep ⟨ts, [], dq, ts.length⟩ ⟨[], [], dq', 0⟩ := by
  induction N with
  | zero =>
    intro ts dq h
    have hts : ts = [] := by
      cases ts with
      | nil => rfl
      | cons t ts => cases t; simp at h
    subst hts
    exact ⟨dq, by simpa using Relation.ReflTransGen.refl⟩
  | succ N ih =>
    intro ts dq h
    cases ts with
    | nil => exact ⟨dq, by simpa using Relation.ReflTransGen.refl⟩
    | cons t rest =>
      have h1 := steps_iteration t rest dq
      have h2 := ih (rest ++ t.kids) (dq ++ [t.url]) (by cases t; simp at h ⊢; omega)
      obtain ⟨dq', h2⟩ := h2
      exact ⟨dq', Relation.ReflTransGen.trans h1 h2⟩

/-- Once every iteration has enqueued all its subpages and the frontier is
empty, only `task_done` signals remain; they drive the counter to zero. -/
theorem steps_drain : ∀ (fl : List (String × List UTree)) (dq : List String),
    (∀ pr ∈ fl, pr.2 = ([] : List UTree)) →
    Relation.ReflTransGen CrawlStep ⟨[], fl, dq, fl.length⟩ ⟨[], [], dq, 0⟩ := by
  intro fl
  induction fl with
  | nil => intro dq _; exact Relation.ReflTransGen.refl
  | cons pr fl ih =>
    intro dq h
    obtain ⟨u, ks⟩ := pr
    have hks : ks = [] := h (u, ks) (List.mem_cons_self _ _)
    subst hks
    refine Relation.ReflTransGen.head ?_ (ih dq fun pr hpr => h pr (List.mem_cons_of_mem _ hpr))
    have hdone := CrawlStep.done [] [] fl u dq fl.length
    simpa using hdone

/-- A completed worker iteration (one whose `analyze_page` returned)
signals `task_done` exactly once, and as its final action — in particular
after every `queue.put` of a child URL. -/
theorem workerEvents_taskDone (url : String) (fr : FetchResult)
    (h : (analyze_page url fr).result.isSome) :
    (workerEvents url fr).count Event.taskDone = 1 ∧
    (workerEvents url fr).getLast? = some Event.taskDone := by
  obtain ⟨⟨divs, subs⟩, heq⟩ := Option.isSome_iff_exists.mp h
  have hzs : ∀ (l : List Nat), (l.map Event.sleep).count Event.taskDone = 0 :=
    fun l => List.count_eq_zero.mpr (by simp)
  have hzd : ∀ (l : List DivisionEntry), (l.map Event.putResult).count Event.taskDone = 0 :=
    fun l => List.count_eq_zero.mpr (by simp)
  have hzu : ∀ (l : List String), (l.map Event.putUrl).count Event.taskDone = 0 :=
    fun l => List.count_eq_zero.mpr (by simp)
  constructor
  · simp [workerEvents, heq, List.count_cons, List.count_append, hzs, hzd, hzu]
  · simp only [workerEvents, heq]
    rw [show (Event.dequeue url :: ((analyze_page url fr).sleeps.map Event.sleep ++
        (divs.map Event.putResult ++ subs.map Event.putUrl ++ [Event.taskDone]))) =
        (Event.dequeue url :: ((analyze_page url fr).sleeps.map Event.sleep ++
        (divs.map Event.putResult ++ subs.map Event.putUrl))) ++ [Event.taskDone] by simp]
    exact List.getLast?_concat _

/-- C1:  Every completed worker iteration — fetch success, network
failure, or rate-limit — signals `task_done` exactly once for the dequeued
URL, after all child URLs (including a re-enqueued failed URL) have been
enqueued; on a finite tree with no induced failures the frontier join
completes, when it completes nothing is pending or in flight and every
node has been dequeued exactly once, and conversely once every node has
been dequeued exactly once nothing is pending, no child remains to
enqueue, and only `task_done` signals separate the system from join
completion. -/
theorem worker_done_once_and_join_correct (t : UTree) (hnd : t.nodes.Nodup) :
    (∀ url fr, (analyze_page url fr).result.isSome →
        (workerEvents url fr).count Event.taskDone = 1 ∧
        (workerEvents url fr).getLast? = some Event.taskDone) ∧
    (∀ s, Reachable t s → s.unfinished = 0 →
        s.pending = [] ∧ s.inflight = [] ∧ s.dequeued.Perm t.nodes ∧ s.dequeued.Nodup) ∧
    (∀ s, Reachable t s → s.dequeued.Perm t.nodes →
        s.pending = [] ∧ (∀ pr ∈ s.inflight, pr.2 = ([] : List UTree)) ∧
        ∃ s', Relation.ReflTransGen CrawlStep s s' ∧ s'.unfinished = 0) ∧
    (∃ s, Reachable t s ∧ s.unfinished = 0) := by
  refine ⟨workerEvents_taskDone, ?_, ?_, ?_⟩
  · intro s hreach h0
    obtain ⟨hc, hm⟩ := crawlInv_of_reachable hreach
    rw [h0] at hc
    have hp : s.pending = [] := List.length_eq_zero.mp (by omega)
    have hf : s.inflight = [] := List.length_eq_zero.mp (by omega)
    have hdq : (↑s.dequeued : Multiset String) = ↑t.nodes := by
      rw [stateMultiset, hp, hf] at hm
      simpa using hm
    have hperm : s.dequeued.Perm t.nodes := Multiset.coe_eq_coe.mp hdq
    exact ⟨hp, hf, hperm, hperm.nodup_iff.mpr hnd⟩
  · intro s hreach hperm
    obtain ⟨hc, hm⟩ := crawlInv_of_reachable hreach
    have hdq : (↑s.dequeued : Multiset String) = ↑t.nodes := Multiset.coe_eq_coe.mpr hperm
    have hrest : (↑(nodesList s.pending) : Multiset String) + ↑(inflightKidNodes s.inflight) = 0 := by
      have h0 : (↑s.dequeued : Multiset String) +
          ((↑(nodesList s.pending) : Multiset String) + ↑(inflightKidNodes s.inflight)) =
          ↑s.dequeued + 0 := by
        rw [add_zero, ← add_assoc]
        rw [stateMultiset] at hm
        rw [hm, hdq]
      exact add_left_cancel h0
    rw [Multiset.coe_add, Multiset.coe_eq_zero, List.append_eq_nil] at hrest
    have hp : s.pending = [] := (nodesList_eq_nil_iff _).mp hrest.1
    have hf : ∀ pr ∈ s.inflight, pr.2 = ([] : List UTree) :=
      (inflightKidNodes_eq_nil_iff _).mp hrest.2
    refine ⟨hp, hf, ?_⟩
    obtain ⟨p, fl, dq, n⟩ := s
    simp only at hp hf hc
    subst hp
    have hn : n = fl.length := by simpa using hc
    subst hn
    exact ⟨⟨[], [], dq, 0⟩, steps_drain fl dq hf, rfl⟩
  · obtain ⟨dq', hrun⟩ := steps_run (sizeList [t]) [t] [] le_rfl
    exact ⟨⟨[], [], dq', 0⟩, hrun, rfl⟩

/-! ## Helper lemmas about `Option`-valued traversals -/

theorem optionMapM_eq_map {α β : Type} (f : α → Option β) (g : α → β) :
    ∀ l : List α, (∀ a ∈ l, f a = some (g a)) → l.mapM f = some (l.map g) := by
  intro l
  induction l with
  | nil => intro _; rfl
  | cons a l ih =>
    intro h
    rw [List.mapM_cons, h a (List.mem_cons_self _ _),
      ih fun b hb => h b (List.mem_cons_of_mem _ hb)]
    rfl

theorem optionMapM_isSome {α β : Type} (f : α → Option β) :
    ∀ l : List α, (∀ a ∈ l, (f a).isSome) → (l.mapM f).isSome := by
  intro l
  induction l with
  | nil => intro _; rfl
  | cons a l ih =>
    intro h
    obtain ⟨b, hb⟩ := Option.isSome_iff_exists.mp (h a (List.mem_cons_self _ _))
    obtain ⟨res, hres⟩ := Option.isSome_iff_exists.mp
      (ih fun x hx => h x (List.mem_cons_of_mem _ hx))
    rw [List.mapM_cons, hb, Option.bind_eq_bind, Option.some_bind, hres,
      Option.bind_eq_bind, Option.some_bind]
    rfl

theorem optionMapM_mem {α β : Type} (f : α → Option β) :
    ∀ (l : List α) (res : List β), l.mapM f = some res → ∀ b ∈ res, ∃ a ∈ l, f a = some b := by
  intro l
  induction l with
  | nil =>
    intro res h b hb
    simp only [List.mapM_nil, Option.pure_def, Option.some.injEq] at h
    rw [← h] at hb
    simp at hb
  | cons a l ih =>
    intro res h b hb
    rw [List.mapM_cons] at h
    simp only [Option.bind_eq_bind, Option.bind_eq_some, Option.pure_def,
      Option.some.injEq] at h
    obtain ⟨b0, hb0, rest, hrest, hres⟩ := h
    rw [← hres] at hb
    rcases List.mem_cons.mp hb with hb | hb
    · exact ⟨a, List.mem_cons_self _ _, hb ▸ hb0⟩
    · obtain ⟨a', ha', hfa'⟩ := ih rest hrest b hb
      exact ⟨a', List.mem_cons_of_mem _ ha', hfa'⟩

theorem findSome?_eq_some_split {α β : Type} (f : α → Option β) :
    ∀ (l : List α) (b : β), l.findSome? f = some b →
    ∃ pre a post, l = pre ++ a :: post ∧ (∀ x ∈ pre, f x = none) ∧ f a = some b := by
  intro l
  induction l with
  | nil => intro b h; simp at h
  | cons a l ih =>
    intro b h
    rw [List.findSome?_cons] at h
    cases hfa : f a with
    | some b' =>
      rw [hfa] at h
      cases h
      exact ⟨[], a, l, rfl, by simp, hfa⟩
    | none =>
      rw [hfa] at h
      obtain ⟨pre, x, post, hl, hpre, hx⟩ := ih b h
      refine ⟨a :: pre, x, post, by rw [hl]; rfl, ?_, hx⟩
      intro y hy
      rcases List.mem_cons.mp hy with hy | hy
      · exact hy ▸ hfa
      · exact hpre y hy

/-! ## Facts about level selection and row extraction -/

/-- No level matches exactly when every level's `find_all` comes back
empty. -/
theorem findLevel_eq_none_iff (doc : List Tr) :
    findLevel doc = none ↔ ∀ t ∈ admin_types, find_all doc (t ++ "tr") = [] := by
  rw [findLevel, List.findSome?_eq_none_iff]
  refine forall_congr' fun t => forall_congr' fun _ => ?_
  constructor
  · intro h
    by_cases he : (find_all doc (t ++ "tr")).isEmpty
    · exact List.isEmpty_iff.mp he
    · simp [he] at h
  · intro h
    simp [h]

/-- A successful level selection returns the first level, in priority
order, whose `find_all` is nonempty, together with exactly those rows. -/
theorem findLevel_eq_some_split (doc : List Tr) (lvl : String) (trs : List Tr)
    (h : findLevel doc = some (lvl, trs)) :
    ∃ pre post, admin_types = pre ++ lvl :: post ∧
      (∀ p ∈ pre, find_all doc (p ++ "tr") = []) ∧
      trs = find_all doc (lvl ++ "tr") ∧ trs ≠ [] := by
  obtain ⟨pre, a, post, hl, hpre, ha⟩ := findSome?_eq_some_split _ admin_types (lvl, trs) h
  by_cases he : (find_all doc (a ++ "tr")).isEmpty
  · simp [he] at ha
  · rw [if_neg he] at ha
    have h3 := Option.some.inj ha
    have ha1 : a = lvl := congrArg Prod.fst h3
    have ha2 : find_all doc (a ++ "tr") = trs := congrArg Prod.snd h3
    subst ha1
    refine ⟨pre, post, hl, ?_, ha2.symm, ?_⟩
    · intro p hp
      have hpn := hpre p hp
      by_cases hp2 : (find_all doc (p ++ "tr")).isEmpty
      · exact List.isEmpty_iff.mp hp2
      · rw [if_neg hp2] at hpn
        cases hpn
    · rw [← ha2]
      intro hnil
      rw [hnil] at he
      simp at he

/-- A record produced by a province cell carries level `"province"`. -/
theorem provinceCell_level (td : Td) (c : DivisionEntry × String)
    (h : provinceCell td = some c) : c.1.2.2 = "province" := by
  cases hta : td.a with
  | none => simp [provinceCell, hta] at h
  | some a =>
    cases hh : a.href with
    | none => simp [provinceCell, hta, hh] at h
    | some hr =>
      simp only [provinceCell, hta, hh, Option.bind_eq_bind, Option.some_bind,
        Option.some.injEq] at h
      rw [← h]

/-- A record produced by a non-province row carries the matched level. -/
theorem otherRow_level (lvl : String) (tr : Tr) (r : DivisionEntry × Option String)
    (h : otherRow lvl tr = some r) : r.1.2.2 = lvl := by
  cases h0 : tr.tds.head? with
  | none => simp [otherRow, h0] at h
  | some td0 =>
    cases h1 : tr.tds.getLast? with
    | none => simp [otherRow, h0, h1] at h
    | some tdn =>
      simp only [otherRow, h0, h1, Option.bind_eq_bind, Option.some_bind,
        Option.some.injEq] at h
      rw [← h]

/-- Every record returned by `extractRows` carries the level that was
matched. -/
theorem extractRows_level (lvl : String) (trs : List Tr)
    (divs : List DivisionEntry) (subs : List String)
    (h : extractRows lvl trs = some (divs, subs)) :
    ∀ d ∈ divs, d.2.2 = lvl := by
  intro d hd
  by_cases hp : lvl = "province"
  · subst hp
    rw [extractRows, if_pos rfl] at h
    cases hcells : trs.mapM fun tr => tr.tds.mapM provinceCell with
    | none => rw [hcells] at h; simp at h
    | some cells =>
      rw [hcells] at h
      simp only [Option.bind_eq_bind, Option.some_bind, Option.some.injEq] at h
      have hdivs : (List.map Prod.fst cells.flatten) = divs := congrArg Prod.fst h
      rw [← hdivs] at hd
      obtain ⟨c, hc, rfl⟩ := List.mem_map.mp hd
      obtain ⟨cell, hcell, hcmem⟩ := List.mem_flatten.mp hc
      obtain ⟨tr, _, htr⟩ := optionMapM_mem _ trs cells hcells cell hcell
      obtain ⟨td, _, htd⟩ := optionMapM_mem _ tr.tds cell htr c hcmem
      exact provinceCell_level td c htd
  · rw [extractRows, if_neg hp] at h
    cases hrows : trs.mapM (otherRow lvl) with
    | none => rw [hrows] at h; simp at h
    | some rows =>
      rw [hrows] at h
      simp only [Option.bind_eq_bind, Option.some_bind, Option.some.injEq] at h
      have hdivs : (List.map Prod.fst rows) = divs := congrArg Prod.fst h
      rw [← hdivs] at hd
      obtain ⟨r, hr, rfl⟩ := List.mem_map.mp hd
      obtain ⟨tr, _, htr⟩ := optionMapM_mem _ trs rows hrows r hr
      exact otherRow_level lvl tr r htr

/-! ## Stripping and URL-resolution lemmas -/

theorem head_dropWhile_false {α : Type} (p : α → Bool) :
    ∀ (l : List α) (a : α), (l.dropWhile p).head? = some a → p a = false := by
  intro l
  induction l with
  | nil => intro a h; simp at h
  | cons b l ih =>
    intro a h
    rw [List.dropWhile_cons] at h
    by_cases hb : p b = true
    · rw [if_pos hb] at h
      exact ih a h
    · rw [if_neg hb] at h
      have hba : b = a := by simpa using h
      rw [← hba]
      simpa using hb

theorem getLast?_dropWhile {α : Type} (p : α → Bool) :
    ∀ l : List α, l.dropWhile p ≠ [] → (l.dropWhile p).getLast? = l.getLast? := by
  intro l
  induction l with
  | nil => intro h; simp at h
  | cons b l ih =>
    intro h
    rw [List.dropWhile_cons] at h ⊢
    by_cases hb : p b = true
    · rw [if_pos hb] at h ⊢
      have hl : l ≠ [] := by
        intro he
        rw [he] at h
        simp at h
      obtain ⟨c, L, hcl⟩ := List.exists_cons_of_ne_nil hl
      rw [ih h, hcl, List.getLast?_cons_cons]
    · rw [if_neg hb]

/-- The result of `pyStrip` neither starts nor ends with whitespace: this
is Python's `str.strip()` contract. -/
theorem pyStrip_noEdgeWhitespace (s : String) : noEdgeWhitespace (pyStrip s) = true := by
  rw [pyStrip, noEdgeWhitespace]
  have hdata :
      (String.mk (((s.data.dropWhile Char.isWhitespace).reverse.dropWhile
        Char.isWhitespace).reverse)).data =
      ((s.data.dropWhile Char.isWhitespace).reverse.dropWhile Char.isWhitespace).reverse := rfl
  rw [hdata, List.head?_reverse, List.getLast?_reverse]
  cases hMh : ((s.data.dropWhile Char.isWhitespace).reverse.dropWhile
      Char.isWhitespace).head? with
  | none =>
    have hM : ((s.data.dropWhile Char.isWhitespace).reverse.dropWhile
        Char.isWhitespace) = [] := List.head?_eq_none_iff.mp hMh
    rw [hM]
    rfl
  | some c =>
    have hc : c.isWhitespace = false := head_dropWhile_false _ _ _ hMh
    have hMne : ((s.data.dropWhile Char.isWhitespace).reverse.dropWhile
        Char.isWhitespace) ≠ [] := by
      intro he
      rw [he] at hMh
      simp at hMh
    rw [getLast?_dropWhile _ _ hMne, List.getLast?_reverse]
    cases hih : (s.data.dropWhile Char.isWhitespace).head? with
    | none =>
      have : s.data.dropWhile Char.isWhitespace = [] := List.head?_eq_none_iff.mp hih
      rw [this] at hMne
      simp at hMne
    | some d =>
      have hd : d.isWhitespace = false := head_dropWhile_false _ _ _ hih
      simp [hc, hd]

theorem isPrefixOf_self_append (p r : List Char) : p.isPrefixOf (p ++ r) = true :=
  List.isPrefixOf_iff_prefix.mpr (List.prefix_append p r)

theorem isAbsoluteUrl_of_http (u : String) (l : List Char)
    (h : u.data = "http://".data ++ l) : isAbsoluteUrl u = true := by
  simp only [isAbsoluteUrl, h, Bool.or_eq_true, decide_eq_true_eq]
  exact Or.inl (isPrefixOf_self_append _ _)

theorem isAbsoluteUrl_of_https (u : String) (l : List Char)
    (h : u.data = "https://".data ++ l) : isAbsoluteUrl u = true := by
  simp only [isAbsoluteUrl, h, Bool.or_eq_true, decide_eq_true_eq]
  exact Or.inr (isPrefixOf_self_append _ _)

theorem data_append (s t : String) : (s ++ t).data = s.data ++ t.data :=
  String.data_append s t

/-- Resolution via `urljoin` with an absolute base produces an absolute URL, whatever the
reference is. -/
theorem urljoin_absolute (base rel : String) (hb : isAbsoluteUrl base = true) :
    isAbsoluteUrl (urljoin base rel) = true := by
  have hb' : "http://".data <+: base.data ∨ "https://".data <+: base.data := by
    simpa [isAbsoluteUrl] using hb
  rw [urljoin]
  by_cases h1 : isAbsoluteUrl rel = true
  · rw [if_pos h1]
    exact h1
  · rw [if_neg h1]
    by_cases h2 : rel.data.take 2 = ['/', '/']
    · rw [if_pos h2]
      have hrel : rel.data = '/' :: '/' :: rel.data.drop 2 := by
        conv_lhs => rw [← List.take_append_drop 2 rel.data]
        rw [h2]
        rfl
      rcases hb' with ⟨tl, htl⟩ | ⟨tl, htl⟩
      · have hsch : (urlScheme base).data = ['h', 't', 't', 'p', ':'] := by
          rw [urlScheme, ← htl]
          rfl
        refine isAbsoluteUrl_of_http _ (rel.data.drop 2) ?_
        rw [data_append, hsch, hrel]
        rfl
      · have hsch : (urlScheme base).data = ['h', 't', 't', 'p', 's', ':'] := by
          rw [urlScheme, ← htl]
          rfl
        refine isAbsoluteUrl_of_https _ (rel.data.drop 2) ?_
        rw [data_append, hsch, hrel]
        rfl
    · rw [if_neg h2]
      by_cases h3 : rel.data.take 1 = ['/']
      · rw [if_pos h3]
        rcases hb' with ⟨tl, htl⟩ | ⟨tl, htl⟩
        · have hroot : (urlRoot base).data =
              "http://".data ++ tl.takeWhile (· ≠ '/') := by
            rw [urlRoot, ← htl]
            rfl
          refine isAbsoluteUrl_of_http _ (tl.takeWhile (· ≠ '/') ++ rel.data) ?_
          rw [data_append, hroot, List.append_assoc]
        · have hroot : (urlRoot base).data =
              "https://".data ++ tl.takeWhile (· ≠ '/') := by
            rw [urlRoot, ← htl]
            rfl
          refine isAbsoluteUrl_of_https _ (tl.takeWhile (· ≠ '/') ++ rel.data) ?_
          rw [data_append, hroot, List.append_assoc]
      · rw [if_neg h3]
        by_cases h4 : rel = ""
        · rw [if_pos h4]
          exact hb
        · rw [if_neg h4]
          rcases hb' with ⟨tl, htl⟩ | ⟨tl, htl⟩
          · have hdir : ∃ r, (urlDir base).data = "http://".data ++ r := by
              rw [urlDir, ← htl]
              show ∃ r, (("http://".data ++ tl).reverse.dropWhile (· ≠ '/')).reverse =
                "http://".data ++ r
              rw [List.reverse_append, List.dropWhile_append]
              by_cases hres : ((tl.reverse.dropWhile (· ≠ '/')).isEmpty : Bool) = true
              · rw [if_pos hres]
                exact ⟨[], by rfl⟩
              · rw [if_neg hres]
                exact ⟨(tl.reverse.dropWhile (· ≠ '/')).reverse, by
                  rw [List.reverse_append]
                  rfl⟩
            obtain ⟨r, hr⟩ := hdir
            refine isAbsoluteUrl_of_http _ (r ++ rel.data) ?_
            rw [data_append, hr, List.append_assoc]
          · have hdir : ∃ r, (urlDir base).data = "https://".data ++ r := by
              rw [urlDir, ← htl]
              show ∃ r, (("https://".data ++ tl).reverse.dropWhile (· ≠ '/')).reverse =
                "https://".data ++ r
              rw [List.reverse_append, List.dropWhile_append]
              by_cases hres : ((tl.reverse.dropWhile (· ≠ '/')).isEmpty : Bool) = true
              · rw [if_pos hres]
                exact ⟨[], by rfl⟩
              · rw [if_neg hres]
                exact ⟨(tl.reverse.dropWhile (· ≠ '/')).reverse, by
                  rw [List.reverse_append]
                  rfl⟩
            obtain ⟨r, hr⟩ := hdir
            refine isAbsoluteUrl_of_https _ (r ++ rel.data) ?_
            rw [data_append, hr, List.append_assoc]

/-! ## Remaining infrastructure -/

theorem writerDrain_foldl (ds : List DivisionEntry) :
    ∀ init : List (List String), ds.foldl writerStep init = init ++ ds.map writerRow := by
  induction ds with
  | nil => intro init; simp
  | cons d ds ih =>
    intro init
    rw [List.foldl_cons, ih (writerStep init d)]
    simp [writerStep]

/-- A non-province row with at least one cell extracts to its row record
and optional row link. -/
theorem otherRow_eq (lvl : String) (tr : Tr) (h : tr.tds ≠ []) :
    otherRow lvl tr = some (rowRecord lvl tr, rowLink tr) := by
  obtain ⟨td0, rest, htds⟩ := List.exists_cons_of_ne_nil h
  obtain ⟨tdn, hlast⟩ : ∃ x, (td0 :: rest).getLast? = some x := by
    cases hl : (td0 :: rest).getLast? with
    | none =>
      rw [List.getLast?_eq_none_iff] at hl
      cases hl
    | some x => exact ⟨x, rfl⟩
  rw [otherRow, htds, List.head?_cons, hlast, Option.bind_eq_bind, Option.some_bind,
    Option.some_bind]
  rw [rowRecord, rowLink, htds]
  rw [List.headD_cons, List.getLastD_eq_getLast?, hlast]
  rfl

/-! ## The claims -/

/-- C3 (amended):  A province cell's code is the link's file-name stem
concatenated with exactly ten `'0'` characters, so its length is the stem
length plus ten — equal to the fixed width 12 exactly when the stem has two
characters, as on real province pages. -/
theorem province_code_is_stem_plus_ten_zeros (td : Td) (a : ATag) (h : String)
    (hta : td.a = some a) (hh : a.href = some h) :
    provinceCell td = some
      ((pySplitHead (pySplitLast h '/') '.' ++ "0000000000", td.text, "province"), h) ∧
    (pySplitHead (pySplitLast h '/') '.' ++ "0000000000").length =
      (pySplitHead (pySplitLast h '/') '.').length + 10 ∧
    ((pySplitHead (pySplitLast h '/') '.').length = 2 →
      (pySplitHead (pySplitLast h '/') '.' ++ "0000000000").length = 12) := by
  refine ⟨?_, ?_, ?_⟩
  · rw [provinceCell, hta, Option.bind_eq_bind, Option.some_bind, hh,
      Option.bind_eq_bind, Option.some_bind]
  · rw [String.length_append]
    rfl
  · intro h2
    rw [String.length_append, h2]
    rfl

/-- Witness for C3's amended theorem at a real two-character stem. -/
theorem province_code_witness :
    tdBeijing.a = some ⟨some "11.html"⟩ ∧
    provinceCell tdBeijing = some (("110000000000", "Beijing", "province"), "11.html") ∧
    ("110000000000" : String).length = 12 := by
  refine ⟨rfl, ?_, by decide⟩
  have h := (province_code_is_stem_plus_ten_zeros tdBeijing ⟨some "11.html"⟩ "11.html"
    rfl rfl).1
  rw [h]
  rfl

/-- Counterexample to **C3** as stated: a province page whose link stem has
three characters yields a 13-character code, not a 12-character one. -/
theorem province_code_not_fixed_width :
    (analyze_page "http://h/2023/" (.success longStemPage)).result =
      some ([("1230000000000", "X", "province")], ["http://h/2023/123.html"]) ∧
    ¬ ("1230000000000" : String).length = 12 := by
  constructor
  · rfl
  · decide

/-- C4:  A transient network failure sleeps exactly 5 seconds and
re-enqueues the same URL with zero records; a rate-limited body sleeps
exactly 60 seconds and re-enqueues the same URL with zero records; both
iterations complete normally (the condition never escapes the loop) and
signal `task_done`. -/
theorem backoff_policy :
    (∀ url, workerEvents url .failure =
        [Event.dequeue url, Event.sleep 5, Event.putUrl url, Event.taskDone]) ∧
    (∀ url html, pyContains rateLimitMarker html.raw = true →
        workerEvents url (.success html) =
        [Event.dequeue url, Event.sleep 60, Event.putUrl url, Event.taskDone]) := by
  constructor
  · intro url
    rfl
  · intro url html h
    rw [workerEvents]
    rw [show analyze_page url (.success html) = ⟨[60], some ([], [url])⟩ by
      rw [analyze_page]
      simp [h]]
    rfl

/-- Witness for C4 at a concrete rate-limited page. -/
theorem backoff_policy_witness :
    pyContains rateLimitMarker markedPage.raw = true ∧
    workerEvents "http://u" (.success markedPage) =
      [Event.dequeue "http://u", Event.sleep 60, Event.putUrl "http://u", Event.taskDone] :=
  ⟨by decide, backoff_policy.2 "http://u" markedPage (by decide)⟩

/-- C10:  The rate-limit check precedes parsing: any body containing
the marker yields zero records and exactly the input URL as the only child,
whatever row groups the body carries. -/
theorem rate_limit_precedence (url : String) (html : Html)
    (h : pyContains rateLimitMarker html.raw = true) :
    analyze_page url (.success html) = ⟨[60], some ([], [url])⟩ := by
  rw [analyze_page]
  simp [h]

/-- Witness for C10: the marked page carries a valid province row group,
yet none of its tables are extracted. -/
theorem rate_limit_precedence_witness :
    pyContains rateLimitMarker markedPage.raw = true ∧
    find_all markedPage.trs "provincetr" ≠ [] ∧
    analyze_page "http://h/2023/" (.success markedPage) =
      ⟨[60], some ([], ["http://h/2023/"])⟩ :=
  ⟨by decide, by decide, rate_limit_precedence "http://h/2023/" markedPage (by decide)⟩

/-- C6 (amended):  The Sink strips the code and name fields when it
writes a row, so every row written to the CSV carries names and codes with
no surrounding whitespace; extraction itself does not trim, so an in-flight
record may carry whitespace. -/
theorem written_fields_trimmed (d : DivisionEntry) :
    noEdgeWhitespace ((writerRow d).getD 0 "") = true ∧
    noEdgeWhitespace ((writerRow d).getD 1 "") = true := by
  constructor
  · exact pyStrip_noEdgeWhitespace d.1
  · exact pyStrip_noEdgeWhitespace d.2.1

/-- Counterexample to **C6** as stated: extraction returns a record whose
name still carries surrounding whitespace. -/
theorem extracted_name_keeps_whitespace :
    (analyze_page "http://h/11/1101.html" (.success wsPage)).result =
      some ([("110101000000", " DongCheng ", "county")], []) ∧
    noEdgeWhitespace " DongCheng " = false := by
  constructor
  · rfl
  · decide

/-- C7:  The Sink writes the header row `code,name,level` first, then
exactly one data row, in field order code–name–level, per record drained
from the Result Channel: the file has one more row than the number of
records written, so the Sink drops nothing. -/
theorem sink_one_row_per_record (ds : List DivisionEntry) :
    writerDrain ds = ["code", "name", "level"] :: ds.map writerRow ∧
    (writerDrain ds).length = 1 + ds.length := by
  have h := writerDrain_foldl ds [csvHeader]
  rw [writerDrain, h]
  constructor
  · rfl
  · simp
    omega

/-- C9:  Every child URL returned by `analyze_page` for an absolutely
addressed page is itself absolute: extracted links pass through `urljoin`
against the page URL, and retry children are the page URL itself. -/
theorem child_urls_absolute (url : String) (fr : FetchResult)
    (divs : List DivisionEntry) (subs : List String)
    (hu : isAbsoluteUrl url = true)
    (h : (analyze_page url fr).result = some (divs, subs)) :
    ∀ s ∈ subs, isAbsoluteUrl s = true := by
  intro s hs
  cases fr with
  | failure =>
    have hsub : subs = [url] := (congrArg Prod.snd (Option.some.inj h)).symm
    rw [hsub] at hs
    rcases List.mem_singleton.mp hs with rfl
    exact hu
  | success html =>
    by_cases hm : pyContains rateLimitMarker html.raw = true
    · rw [analyze_page] at h
      simp only [hm] at h
      have hsub : subs = [url] := (congrArg Prod.snd (Option.some.inj h)).symm
      rw [hsub] at hs
      rcases List.mem_singleton.mp hs with rfl
      exact hu
    · rw [Bool.not_eq_true] at hm
      cases hfl : findLevel html.trs with
      | none =>
        rw [analyze_page] at h
        simp only [hm, Bool.false_eq_true, if_false, hfl] at h
        have hsub : subs = [] := (congrArg Prod.snd (Option.some.inj h)).symm
        rw [hsub] at hs
        cases hs
      | some pr =>
        obtain ⟨lvl, trs⟩ := pr
        cases hex : extractRows lvl trs with
        | none =>
          rw [analyze_page] at h
          simp only [hm, Bool.false_eq_true, if_false, hfl, hex] at h
          cases h
        | some pr2 =>
          obtain ⟨divs0, subs0⟩ := pr2
          rw [analyze_page] at h
          simp only [hm, Bool.false_eq_true, if_false, hfl, hex] at h
          have hsub : subs = subs0.map (urljoin url) :=
            (congrArg Prod.snd (Option.some.inj h)).symm
          rw [hsub] at hs
          obtain ⟨s0, _, rfl⟩ := List.mem_map.mp hs
          exact urljoin_absolute url s0 hu

/-- Witness for C9 on the synthetic province page. -/
theorem child_urls_absolute_witness :
    isAbsoluteUrl "http://h/2023/" = true ∧
    (analyze_page "http://h/2023/" (.success provincePage)).result =
      some ([("110000000000", "Beijing", "province"), ("120000000000", "Tianjin", "province")],
        ["http://h/2023/11.html", "http://h/2023/12.html"]) ∧
    ∀ s ∈ ["http://h/2023/11.html", "http://h/2023/12.html"], isAbsoluteUrl s = true := by
  refine ⟨by decide, by rfl, ?_⟩
  exact child_urls_absolute "http://h/2023/" (.success provincePage) _ _ (by decide) (by rfl)

/-- C2:  Extraction tries the levels in the fixed priority order and
uses the first one with a matching row group, ignoring the rest, so every
record of a page carries that single level; when no level matches it
returns two empty sequences without failing. -/
theorem first_matching_level_used :
    (∀ url html,
        pyContains rateLimitMarker html.raw = false →
        (∀ t ∈ admin_types, find_all html.trs (t ++ "tr") = []) →
        analyze_page url (.success html) = ⟨[], some ([], [])⟩) ∧
    (∀ url html lvl trs divs subs,
        pyContains rateLimitMarker html.raw = false →
        findLevel html.trs = some (lvl, trs) →
        (analyze_page url (.success html)).result = some (divs, subs) →
        (∃ pre post, admin_types = pre ++ lvl :: post ∧
          (∀ p ∈ pre, find_all html.trs (p ++ "tr") = []) ∧
          trs = find_all html.trs (lvl ++ "tr") ∧ trs ≠ []) ∧
        ∀ d ∈ divs, d.2.2 = lvl) := by
  constructor
  · intro url html hm hall
    have hfl : findLevel html.trs = none := (findLevel_eq_none_iff html.trs).mpr hall
    rw [analyze_page]
    simp only [hm, Bool.false_eq_true, if_false, hfl]
  · intro url html lvl trs divs subs hm hfl h
    refine ⟨findLevel_eq_some_split html.trs lvl trs hfl, ?_⟩
    cases hex : extractRows lvl trs with
    | none =>
      rw [analyze_page] at h
      simp only [hm, Bool.false_eq_true, if_false, hfl, hex] at h
      cases h
    | some pr =>
      obtain ⟨divs0, subs0⟩ := pr
      rw [analyze_page] at h
      simp only [hm, Bool.false_eq_true, if_false, hfl, hex] at h
      have hdivs : divs = divs0 := (congrArg Prod.fst (Option.some.inj h)).symm
      rw [hdivs]
      exact extractRows_level lvl trs divs0 subs0 hex

/-- Witness for C2 on a leaf page and a city page. -/
theorem first_matching_level_used_witness :
    pyContains rateLimitMarker leafPage.raw = false ∧
    (∀ t ∈ admin_types, find_all leafPage.trs (t ++ "tr") = []) ∧
    analyze_page "http://u" (.success leafPage) = ⟨[], some ([], [])⟩ ∧
    pyContains rateLimitMarker cityPage.raw = false ∧
    findLevel cityPage.trs = some ("city", [cityRowLinked, cityRowPlain]) ∧
    (∃ pre post, admin_types = pre ++ "city" :: post ∧
      (∀ p ∈ pre, find_all cityPage.trs (p ++ "tr") = []) ∧
      [cityRowLinked, cityRowPlain] = find_all cityPage.trs "citytr" ∧
      [cityRowLinked, cityRowPlain] ≠ []) ∧
    ∀ d ∈ [("110100000000", "市辖区", "city"), ("110200000000", "县", "city")],
      d.2.2 = "city" := by
  have h2 := first_matching_level_used.2 "http://h/2023/11.html" cityPage "city"
    [cityRowLinked, cityRowPlain]
    [("110100000000", "市辖区", "city"), ("110200000000", "县", "city")]
    ["http://h/2023/11/1101.html"]
    (by decide) (by decide) (by rfl)
  exact ⟨by decide, by decide,
    first_matching_level_used.1 "http://u" leafPage (by decide) (by decide),
    by decide, by decide, h2.1, h2.2⟩

/-- C5:  On a non-province page, every matched row with at least one
cell yields exactly one record — code from the first cell's text, name
from the last cell's text — and contributes a child link exactly when its
first cell holds a link with a nonempty target. -/
theorem nonprovince_rows (lvl : String) (trs : List Tr)
    (hlvl : lvl ≠ "province") (h : ∀ tr ∈ trs, tr.tds ≠ []) :
    extractRows lvl trs = some (trs.map (rowRecord lvl), trs.filterMap rowLink) ∧
    ∀ tr ∈ trs, ((rowLink tr).isSome = true ↔
      ∃ a hr, (tr.tds.headD ⟨"", none⟩).a = some a ∧ a.href = some hr ∧ hr ≠ "") := by
  constructor
  · rw [extractRows, if_neg hlvl]
    rw [optionMapM_eq_map (otherRow lvl) (fun tr => (rowRecord lvl tr, rowLink tr)) trs
      fun tr htr => otherRow_eq lvl tr (h tr htr)]
    rw [Option.bind_eq_bind, Option.some_bind]
    simp only [List.map_map, List.filterMap_map]
    rfl
  · intro tr _
    rw [rowLink]
    cases ha : (tr.tds.headD ⟨"", none⟩).a with
    | none => simp [ha]
    | some a =>
      cases hh : a.href with
      | none => simp [ha, hh]
      | some hr =>
        by_cases he : hr = ""
        · subst he
          simp [ha, hh]
        · simp [ha, hh, he]

/-- Witness for C5 on the synthetic city page. -/
theorem nonprovince_rows_witness :
    ("city" : String) ≠ "province" ∧
    (∀ tr ∈ [cityRowLinked, cityRowPlain], tr.tds ≠ []) ∧
    extractRows "city" [cityRowLinked, cityRowPlain] =
      some ([("110100000000", "市辖区", "city"), ("110200000000", "县", "city")],
        ["11/1101.html"]) ∧
    (rowLink cityRowLinked).isSome = true ∧
    (rowLink cityRowPlain).isSome = false := by
  have h := nonprovince_rows "city" [cityRowLinked, cityRowPlain] (by decide) (by decide)
  refine ⟨by decide, by decide, ?_, by decide, by decide⟩
  rw [h.1]
  rfl

/-- C8:  Under the well-formedness precondition — every matched row
has at least one cell, and on province pages every cell holds a link with
an `href` — extraction completes without raising; and the error branch is
reachable: on a matched page with a cell-less row the exception escapes
`analyze_page`, the worker iteration ends with no `task_done` and no
re-enqueue. -/
theorem extraction_totality :
    (∀ url html lvl trs,
        pyContains rateLimitMarker html.raw = false →
        findLevel html.trs = some (lvl, trs) →
        (∀ tr ∈ trs, tr.tds ≠ []) →
        (lvl = "province" → ∀ tr ∈ trs, ∀ td ∈ tr.tds,
          ∃ a hr, td.a = some a ∧ a.href = some hr) →
        (analyze_page url (.success html)).result.isSome = true) ∧
    ((analyze_page "http://h/bad.html" (.success malformedPage)).result = none ∧
      workerEvents "http://h/bad.html" (.success malformedPage) =
        [Event.dequeue "http://h/bad.html"]) := by
  constructor
  · intro url html lvl trs hm hfl hcells hprov
    have hex : (extractRows lvl trs).isSome = true := by
      by_cases hp : lvl = "province"
      · subst hp
        rw [extractRows, if_pos rfl]
        have h1 : ((trs.mapM fun tr => tr.tds.mapM provinceCell :
            Option (List (List (DivisionEntry × String))))).isSome = true := by
          apply optionMapM_isSome
          intro tr htr
          show (tr.tds.mapM provinceCell).isSome = true
          apply optionMapM_isSome
          intro td htd
          obtain ⟨a, hr, ha, hhr⟩ := hprov rfl tr htr td htd
          rw [provinceCell, Option.bind_eq_bind, ha, Option.some_bind, hhr,
            Option.bind_eq_bind, Option.some_bind]
          rfl
        obtain ⟨cells, hcl⟩ := Option.isSome_iff_exists.mp h1
        rw [hcl, Option.bind_eq_bind, Option.some_bind]
        rfl
      · rw [extractRows, if_neg hp]
        have h1 : (trs.mapM (otherRow lvl)).isSome = true := by
          apply optionMapM_isSome
          intro tr htr
          rw [otherRow_eq lvl tr (hcells tr htr)]
          rfl
        obtain ⟨rows, hrw⟩ := Option.isSome_iff_exists.mp h1
        rw [hrw, Option.bind_eq_bind, Option.some_bind]
        rfl
    obtain ⟨pr, hpr⟩ := Option.isSome_iff_exists.mp hex
    obtain ⟨d0, s0⟩ := pr
    rw [analyze_page]
    simp only [hm, Bool.false_eq_true, if_false, hfl, hpr]
    rfl
  · exact ⟨rfl, rfl⟩

/-- Witness for C8's totality half on the synthetic province page. -/
theorem extraction_totality_witness :
    pyContains rateLimitMarker provincePage.raw = false ∧
    findLevel provincePage.trs = some ("province", [⟨["provincetr"], [tdBeijing, tdTianjin]⟩]) ∧
    (analyze_page "http://h/2023/" (.success provincePage)).result.isSome = true := by
  refine ⟨by decide, by decide, ?_⟩
  apply extraction_totality.1 "http://h/2023/" provincePage "province"
    [⟨["provincetr"], [tdBeijing, tdTianjin]⟩] (by decide) (by decide) (by decide)
  intro _ tr htr td htd
  fin_cases htr
  fin_cases htd
  · exact ⟨⟨some "11.html"⟩, "11.html", rfl, rfl⟩
  · exact ⟨⟨some "12.html"⟩, "12.html", rfl, rfl⟩

/-- Witness for C1 on the three-node demo tree. -/
theorem worker_done_once_and_join_correct_witness :
    demoTree.nodes.Nodup ∧
    (analyze_page "http://u" FetchResult.failure).result.isSome = true ∧
    (workerEvents "http://u" FetchResult.failure).count Event.taskDone = 1 ∧
    (∃ s, Reachable demoTree s ∧ s.unfinished = 0) := by
  have h := worker_done_once_and_join_correct demoTree (by decide)
  exact ⟨by decide, rfl, (h.1 "http://u" .failure rfl).1, h.2.2.2⟩

end Prcadmin
